import Mathlib

/-!
A shallow embedding of the `TreeStore` in-memory forest index
(`src/core/TreeStore.ts`) and of the pure tree utilities
(`src/utils/tree.utils.ts`).

Modelling conventions:
* Identifiers (`TreeItemId = string | number`) are modelled as `Nat`,
  labels as `String`; `parent: TreeItemId | null` becomes `Option Nat`.
* A JavaScript `Map` is modelled as an association list (`EMap`): the code
  never iterates a map, so only `get`/`set`/`delete`/`has` are observable.
* JavaScript reference equality (`===`, used by `Array.prototype.indexOf`)
  on record objects is modelled as structural equality on record values.
  The two agree on every state used below: either the compared values
  differ in contents, or a uniqueness invariant (stated as a hypothesis)
  makes the record value unique in the array.
* Source loops and recursions that are unbounded on cyclic data take an
  explicit `fuel : Nat` and return `none` when the fuel is exhausted; a
  source computation that diverges is one that returns `none` at every
  fuel.
-/

structure ITreeItem where
  id : Nat
  parent : Option Nat
  label : String
deriving DecidableEq, Repr

/-- Association-list model of a JavaScript `Map` keyed by identifiers. -/
abbrev EMap (α : Type) := List (Nat × α)

def mapGet {α : Type} : EMap α → Nat → Option α
  | [], _ => none
  | (k2, v) :: rest, k => if k2 = k then some v else mapGet rest k

def mapSet {α : Type} : EMap α → Nat → α → EMap α
  | [], k, v => [(k, v)]
  | (k2, v2) :: rest, k, v =>
      if k2 = k then (k, v) :: rest else (k2, v2) :: mapSet rest k v

def mapDelete {α : Type} : EMap α → Nat → EMap α
  | [], _ => []
  | (k2, v2) :: rest, k =>
      if k2 = k then mapDelete rest k else (k2, v2) :: mapDelete rest k

def mapHas {α : Type} (m : EMap α) (k : Nat) : Bool := (mapGet m k).isSome

/-- The store state: the canonical `items` array plus the three derived
indices, exactly the four fields of the `TreeStore` class. -/
structure TreeStore where
  items : List ITreeItem
  itemsMap : EMap ITreeItem
  childrenMap : EMap (List ITreeItem)
  parentChainCache : EMap (List ITreeItem)
deriving DecidableEq, Repr

namespace TreeStore

/-- A freshly constructed `new TreeStore()`. -/
def emptyStore : TreeStore := ⟨[], [], [], []⟩

/-- `getItem(id)`: `this.itemsMap.get(id)`. -/
def getItem (s : TreeStore) (i : Nat) : Option ITreeItem := mapGet s.itemsMap i

/-- `getChildren(id)`: `this.childrenMap.get(id) || []`. -/
def getChildren (s : TreeStore) (i : Nat) : List ITreeItem :=
  (mapGet s.childrenMap i).getD []

/-- The recursion of `getAllChildren`: for each child push it, then push its
descendants recursively.  `fuel` bounds the recursion depth. -/
def gacGo (s : TreeStore) (fuel : Nat) (l : List ITreeItem) :
    Option (List ITreeItem) :=
  match fuel, l with
  | _, [] => some []
  | 0, _ :: _ => none
  | Nat.succ fuel, c :: cs =>
      match gacGo s fuel (getChildren s c.id) with
      | none => none
      | some ds =>
          match gacGo s fuel cs with
          | none => none
          | some rest => some (c :: (ds ++ rest))

/-- `getAllChildren(id)` with explicit recursion-depth fuel. -/
def getAllChildrenF (s : TreeStore) (fuel : Nat) (i : Nat) :
    Option (List ITreeItem) :=
  gacGo s fuel (getChildren s i)

/-- The `while (currentItem)` loop of `getAllParents`: push the current
item, stop at a root, otherwise continue from `getItem(parent)`. -/
def walkParents (s : TreeStore) : Nat → Option ITreeItem → Option (List ITreeItem)
  | _, none => some []
  | 0, some _ => none
  | Nat.succ fuel, some cur =>
      match cur.parent with
      | none => some [cur]
      | some p =>
          match walkParents s fuel (getItem s p) with
          | none => none
          | some rest => some (cur :: rest)

/-- `getAllParents(id)`: serve a copy from the cache when present,
otherwise walk up, cache the result and return a copy.  The call mutates
the store (it fills the cache), so the updated store is returned. -/
def getAllParentsF (s : TreeStore) (fuel : Nat) (i : Nat) :
    Option (List ITreeItem × TreeStore) :=
  match mapGet s.parentChainCache i with
  | some chain => some (chain, s)
  | none =>
      match walkParents s fuel (getItem s i) with
      | none => none
      | some res =>
          some (res, { s with parentChainCache := mapSet s.parentChainCache i res })

/-- The recursion of `invalidateParentChainCacheRecursive` over a worklist
of identifiers: delete the cache entry for the head, recurse into its
children (depth bounded by `fuel`), then continue with the rest.  The
source method reads only `childrenMap` (`cm`) and writes only
`parentChainCache` (`cache`), so it is embedded as a function of those two
maps. -/
def invGo (cm : EMap (List ITreeItem)) (fuel : Nat) (cache : EMap (List ITreeItem))
    (l : List Nat) : Option (EMap (List ITreeItem)) :=
  match fuel, l with
  | _, [] => some cache
  | 0, _ :: _ => none
  | Nat.succ fuel, i :: rest =>
      match invGo cm fuel (mapDelete cache i) (((mapGet cm i).getD []).map (fun c => c.id)) with
      | none => none
      | some cache2 => invGo cm fuel cache2 rest

/-- `invalidateParentChainCacheRecursive(id)` (and its delegating wrapper
`invalidateParentChainCache`). -/
def invalidateRec (s : TreeStore) (fuel : Nat) (i : Nat) : Option TreeStore :=
  match invGo s.childrenMap fuel s.parentChainCache [i] with
  | none => none
  | some cache => some { s with parentChainCache := cache }

/-- `addItem(item)`: push to the array, set the id index, link under the
parent (if any) and invalidate the parent's subtree cache, finally
initialize an empty children list for the new item when absent. -/
def addItem (s : TreeStore) (fuel : Nat) (item : ITreeItem) : Option TreeStore :=
  let s1 : TreeStore :=
    { s with items := s.items ++ [item], itemsMap := mapSet s.itemsMap item.id item }
  match item.parent with
  | some p =>
      let siblings := (mapGet s1.childrenMap p).getD []
      let s2 : TreeStore :=
        { s1 with childrenMap := mapSet s1.childrenMap p (siblings ++ [item]) }
      match invalidateRec s2 fuel p with
      | none => none
      | some s3 =>
          some (if mapHas s3.childrenMap item.id then s3
                else { s3 with childrenMap := mapSet s3.childrenMap item.id [] })
  | none =>
      some (if mapHas s1.childrenMap item.id then s1
            else { s1 with childrenMap := mapSet s1.childrenMap item.id [] })

/-- Remove the first occurrence of a given record value (models
`items.indexOf(x)` + `splice`, with `===` read as value equality). -/
def eraseFirstItem : List ITreeItem → ITreeItem → List ITreeItem
  | [], _ => []
  | c :: cs, x => if c = x then cs else c :: eraseFirstItem cs x

/-- Replace the first occurrence of a record value (models
`items.indexOf(existing)` + `items[index] = updated`). -/
def replaceFirst : List ITreeItem → ITreeItem → ITreeItem → List ITreeItem
  | [], _, _ => []
  | c :: cs, x, y => if c = x then y :: cs else c :: replaceFirst cs x y

/-- Remove the first child with the given id (models `findIndex` +
`splice` in `removeFromChildrenMap`). -/
def eraseFirstById : List ITreeItem → Nat → List ITreeItem
  | [], _ => []
  | c :: cs, cid => if c.id = cid then cs else c :: eraseFirstById cs cid

/-- `removeFromChildrenMap(parentId, childId)`. -/
def removeFromChildrenMap (s : TreeStore) (parentId childId : Nat) : TreeStore :=
  match mapGet s.childrenMap parentId with
  | none => s
  | some children =>
      { s with childrenMap := mapSet s.childrenMap parentId (eraseFirstById children childId) }

/-- One turn of the removal loop in `removeItem`: splice the value out of
the array and delete the three index entries for its id. -/
def removeOne (st : TreeStore) (it : ITreeItem) : TreeStore :=
  { st with
    items := eraseFirstItem st.items it,
    itemsMap := mapDelete st.itemsMap it.id,
    childrenMap := mapDelete st.childrenMap it.id,
    parentChainCache := mapDelete st.parentChainCache it.id }

/-- `removeItem(id)`: not-found returns `false` untouched; otherwise
collect the descendants, remove item and descendants everywhere, unlink
from the former parent and invalidate that parent's subtree cache. -/
def removeItem (s : TreeStore) (fuel : Nat) (i : Nat) : Option (Bool × TreeStore) :=
  match getItem s i with
  | none => some (false, s)
  | some item =>
      match getAllChildrenF s fuel i with
      | none => none
      | some allChildren =>
          let s1 := (item :: allChildren).foldl removeOne s
          match item.parent with
          | none => some (true, s1)
          | some p =>
              let s2 := removeFromChildrenMap s1 p i
              match invalidateRec s2 fuel p with
              | none => none
              | some s3 => some (true, s3)

/-- `updateItem(updatedItem)`: not-found returns `false`; otherwise
replace the stored value; when the parent changed, unlink from the old
parent, link under the new one (invalidating both subtrees) and
invalidate the record's own subtree cache. -/
def updateItem (s : TreeStore) (fuel : Nat) (updatedItem : ITreeItem) :
    Option (Bool × TreeStore) :=
  match getItem s updatedItem.id with
  | none => some (false, s)
  | some existingItem =>
      let s2 : TreeStore :=
        { s with
          items := replaceFirst s.items existingItem updatedItem,
          itemsMap := mapSet s.itemsMap updatedItem.id updatedItem }
      if existingItem.parent = updatedItem.parent then some (true, s2)
      else
        let s3res : Option TreeStore :=
          match existingItem.parent with
          | some op => invalidateRec (removeFromChildrenMap s2 op updatedItem.id) fuel op
          | none => some s2
        match s3res with
        | none => none
        | some s3 =>
            let s4res : Option TreeStore :=
              match updatedItem.parent with
              | some np =>
                  let siblings := (mapGet s3.childrenMap np).getD []
                  invalidateRec
                    { s3 with childrenMap := mapSet s3.childrenMap np (siblings ++ [updatedItem]) }
                    fuel np
              | none => some s3
            match s4res with
            | none => none
            | some s4 =>
                match invalidateRec s4 fuel updatedItem.id with
                | none => none
                | some s5 => some (true, s5)

/-- First pass of `buildIndexes`: register the id and make sure a children
list exists for it. -/
def buildPass1 (st : TreeStore) (it : ITreeItem) : TreeStore :=
  let st1 : TreeStore := { st with itemsMap := mapSet st.itemsMap it.id it }
  if mapHas st1.childrenMap it.id then st1
  else { st1 with childrenMap := mapSet st1.childrenMap it.id [] }

/-- Second pass of `buildIndexes`: link each item under its parent,
creating the list when the parent was never registered. -/
def buildPass2 (st : TreeStore) (it : ITreeItem) : TreeStore :=
  match it.parent with
  | none => st
  | some p =>
      match mapGet st.childrenMap p with
      | some children =>
          { st with childrenMap := mapSet st.childrenMap p (children ++ [it]) }
      | none => { st with childrenMap := mapSet st.childrenMap p [it] }

/-- `buildIndexes()`: clear the three maps, then the two passes. -/
def buildIndexes (s : TreeStore) : TreeStore :=
  let s0 : TreeStore := { s with itemsMap := [], childrenMap := [], parentChainCache := [] }
  let s1 := s.items.foldl buildPass1 s0
  s.items.foldl buildPass2 s1

/-- `update(items)`: replace the canonical array and rebuild all indices. -/
def update (s : TreeStore) (newItems : List ITreeItem) : TreeStore :=
  buildIndexes { s with items := newItems }

end TreeStore

/-- The recursion of `sortTreeItemsDFS.traverse` over a worklist of ids:
skip visited or unknown ids, otherwise mark visited, emit the item and
descend into its children before the rest.  `fuel` bounds the descent
depth. -/
def dfsGo (s : TreeStore) (fuel : Nat) (visited : List Nat) (l : List Nat)
    (acc : List ITreeItem) : Option (List Nat × List ITreeItem) :=
  match fuel, l with
  | _, [] => some (visited, acc)
  | 0, _ :: _ => none
  | Nat.succ fuel, i :: rest =>
      if i ∈ visited then dfsGo s fuel visited rest acc
      else
        match TreeStore.getItem s i with
        | none => dfsGo s fuel visited rest acc
        | some item =>
            match dfsGo s fuel (visited ++ [i])
                ((TreeStore.getChildren s i).map (fun c => c.id)) (acc ++ [item]) with
            | none => none
            | some (v2, a2) => dfsGo s fuel v2 rest a2

/-- `sortTreeItemsDFS(items, treeStore)`: traverse from the roots
(`parent === null`) of the input sequence, in their input order. -/
def sortTreeItemsDFSF (s : TreeStore) (fuel : Nat) (its : List ITreeItem) :
    Option (List ITreeItem) :=
  match dfsGo s fuel [] ((its.filter (fun it => it.parent.isNone)).map (fun it => it.id)) [] with
  | none => none
  | some (_, res) => some res

/-- The identifiers visited by the invalidation recursion, in visit order:
the same traversal of the children map as `invGo`, recording ids instead of
deleting cache entries. -/
def collectGo (cm : EMap (List ITreeItem)) (fuel : Nat) (l : List Nat) :
    Option (List Nat) :=
  match fuel, l with
  | _, [] => some []
  | 0, _ :: _ => none
  | Nat.succ fuel, i :: rest =>
      match collectGo cm fuel (((mapGet cm i).getD []).map (fun c => c.id)) with
      | none => none
      | some ds =>
          match collectGo cm fuel rest with
          | none => none
          | some rs => some (i :: (ds ++ rs))

/-- Delete a list of keys in order. -/
def deleteAll {α : Type} (m : EMap α) (ids : List Nat) : EMap α :=
  ids.foldl mapDelete m

/-- Specification-side description of the ancestor chain (from the claim's
words): the chain starts with the record itself, each element is followed
by the record its `parent` field resolves to, and the chain ends at a root
or at a record whose parent id resolves to no stored record; for an
identifier that resolves to nothing the chain is empty. -/
inductive ChainFrom (s : TreeStore) : Option ITreeItem → List ITreeItem → Prop
  | nil : ChainFrom s none []
  | root (it : ITreeItem) (h : it.parent = none) : ChainFrom s (some it) [it]
  | step (it : ITreeItem) (p : Nat) (rest : List ITreeItem) (h : it.parent = some p)
      (hc : ChainFrom s (TreeStore.getItem s p) rest) :
      ChainFrom s (some it) (it :: rest)

/-! ### Association-list map lemmas -/

theorem mapGet_mapSet_self {α : Type} (m : EMap α) (k : Nat) (v : α) :
    mapGet (mapSet m k v) k = some v := by
  induction m with
  | nil => simp [mapSet, mapGet]
  | cons p rest ih =>
      obtain ⟨k2, v2⟩ := p
      by_cases h : k2 = k
      · simp [mapSet, h, mapGet]
      · simp [mapSet, h, mapGet, ih]

theorem mapGet_mapSet_other {α : Type} (m : EMap α) (k j : Nat) (v : α)
    (h : j ≠ k) : mapGet (mapSet m k v) j = mapGet m j := by
  have h2 : k ≠ j := fun hh => h hh.symm
  induction m with
  | nil => simp [mapSet, mapGet, h2]
  | cons p rest ih =>
      obtain ⟨k2, v2⟩ := p
      by_cases hk : k2 = k
      · subst hk
        simp [mapSet, mapGet, h2]
      · simp [mapSet, hk, mapGet, ih]

theorem mapGet_mapDelete_self {α : Type} (m : EMap α) (k : Nat) :
    mapGet (mapDelete m k) k = none := by
  induction m with
  | nil => simp [mapDelete, mapGet]
  | cons p rest ih =>
      obtain ⟨k2, v2⟩ := p
      by_cases h : k2 = k
      · simp [mapDelete, h, ih]
      · simp [mapDelete, h, mapGet, ih]

theorem mapGet_mapDelete_other {α : Type} (m : EMap α) (k j : Nat) (h : j ≠ k) :
    mapGet (mapDelete m k) j = mapGet m j := by
  have h2 : k ≠ j := fun hh => h hh.symm
  induction m with
  | nil => simp [mapDelete]
  | cons p rest ih =>
      obtain ⟨k2, v2⟩ := p
      by_cases hk : k2 = k
      · subst hk
        simp [mapDelete, mapGet, h2, ih]
      · simp [mapDelete, hk, mapGet, ih]

theorem mapGet_deleteAll_none {α : Type} (cache : EMap α) (ids : List Nat)
    (j : Nat) (h : mapGet cache j = none) :
    mapGet (deleteAll cache ids) j = none := by
  induction ids generalizing cache with
  | nil => exact h
  | cons i rest ih =>
      show mapGet (deleteAll (mapDelete cache i) rest) j = none
      apply ih
      by_cases hj : j = i
      · subst hj
        exact mapGet_mapDelete_self cache j
      · rw [mapGet_mapDelete_other cache i j hj]
        exact h

theorem mapGet_deleteAll_mem {α : Type} (cache : EMap α) (ids : List Nat)
    (j : Nat) (h : j ∈ ids) : mapGet (deleteAll cache ids) j = none := by
  induction ids generalizing cache with
  | nil => cases h
  | cons i rest ih =>
      rcases List.mem_cons.mp h with rfl | h2
      · show mapGet (deleteAll (mapDelete cache j) rest) j = none
        exact mapGet_deleteAll_none _ _ _ (mapGet_mapDelete_self cache j)
      · exact ih _ h2

theorem mapGet_deleteAll_not_mem {α : Type} (cache : EMap α) (ids : List Nat)
    (j : Nat) (h : j ∉ ids) : mapGet (deleteAll cache ids) j = mapGet cache j := by
  induction ids generalizing cache with
  | nil => rfl
  | cons i rest ih =>
      have hi : j ≠ i := fun hh => h (hh ▸ List.mem_cons_self i rest)
      show mapGet (deleteAll (mapDelete cache i) rest) j = mapGet cache j
      rw [ih _ (fun hh => h (List.mem_cons_of_mem i hh)),
        mapGet_mapDelete_other cache i j hi]

/-! ### The ancestor-chain walk realizes the specified chain -/

theorem walkParents_chainFrom (s : TreeStore) :
    ∀ (fuel : Nat) (cur : Option ITreeItem) (l : List ITreeItem),
      TreeStore.walkParents s fuel cur = some l → ChainFrom s cur l := by
  intro fuel
  induction fuel with
  | zero =>
      intro cur l h
      cases cur with
      | none =>
          simp only [TreeStore.walkParents, Option.some.injEq] at h
          subst h
          exact ChainFrom.nil
      | some c => simp [TreeStore.walkParents] at h
  | succ n ih =>
      intro cur l h
      cases cur with
      | none =>
          simp only [TreeStore.walkParents, Option.some.injEq] at h
          subst h
          exact ChainFrom.nil
      | some c =>
          simp only [TreeStore.walkParents] at h
          cases hp : c.parent with
          | none =>
              simp only [hp, Option.some.injEq] at h
              subst h
              exact ChainFrom.root c hp
          | some p =>
              simp only [hp] at h
              cases hw : TreeStore.walkParents s n (TreeStore.getItem s p) with
              | none =>
                  simp only [hw] at h
                  exact Option.noConfusion h
              | some rest =>
                  simp only [hw, Option.some.injEq] at h
                  subst h
                  exact ChainFrom.step c p rest hp (ih _ _ hw)

/-! ### Invalidation deletes exactly the visited subtree's cache entries -/

theorem deleteAll_append {α : Type} (cache : EMap α) (a b : List Nat) :
    deleteAll cache (a ++ b) = deleteAll (deleteAll cache a) b := by
  simp [deleteAll, List.foldl_append]

theorem invGo_eq_collectGo (cm : EMap (List ITreeItem)) :
    ∀ (fuel : Nat) (l : List Nat) (cache : EMap (List ITreeItem)),
      TreeStore.invGo cm fuel cache l = (collectGo cm fuel l).map (deleteAll cache) := by
  intro fuel l
  induction fuel, l using collectGo.induct cm with
  | case1 fuel => intro cache; simp [TreeStore.invGo, collectGo, deleteAll]
  | case2 i rest => intro cache; simp [TreeStore.invGo, collectGo]
  | case3 fuel i rest h1 ih1 =>
      intro cache
      simp only [TreeStore.invGo, collectGo, h1, ih1, Option.map_none']
  | case4 fuel i rest rs h1 h2 ih1 ih2 =>
      intro cache
      simp only [TreeStore.invGo, collectGo, h1, h2, ih1, ih2, Option.map_some',
        Option.map_none']
  | case5 fuel i rest rs h1 rs2 h2 ih1 ih2 =>
      intro cache
      simp only [TreeStore.invGo, collectGo, h1, h2, ih1, ih2, Option.map_some']
      simp [deleteAll, List.foldl_append]

theorem collectGo_mono (cm : EMap (List ITreeItem)) :
    ∀ (fuel : Nat) (l : List Nat) (ids : List Nat),
      collectGo cm fuel l = some ids → collectGo cm (fuel + 1) l = some ids := by
  intro fuel l
  induction fuel, l using collectGo.induct cm with
  | case1 fuel =>
      intro ids h
      simp only [collectGo] at h ⊢
      exact h
  | case2 i rest => intro ids h; simp [collectGo] at h
  | case3 fuel i rest h1 ih1 =>
      intro ids h
      simp [collectGo, h1] at h
  | case4 fuel i rest rs h1 h2 ih1 ih2 =>
      intro ids h
      simp [collectGo, h1, h2] at h
  | case5 fuel i rest rs h1 rs2 h2 ih1 ih2 =>
      intro ids h
      simp only [collectGo, h1, h2, Option.some.injEq] at h
      have g1 := ih1 rs h1
      have g2 := ih2 rs2 h2
      show collectGo cm (Nat.succ (Nat.succ fuel)) (i :: rest) = some ids
      simp only [collectGo, g1, g2, Option.some.injEq]
      exact h

theorem collectGo_le (cm : EMap (List ITreeItem)) (fuel fuel2 : Nat)
    (l ids : List Nat) (h : collectGo cm fuel l = some ids) (hle : fuel ≤ fuel2) :
    collectGo cm fuel2 l = some ids := by
  induction hle with
  | refl => exact h
  | step _ ih => exact collectGo_mono cm _ _ _ ih

theorem collectGo_det (cm : EMap (List ITreeItem)) (f1 f2 : Nat) (l a b : List Nat)
    (h1 : collectGo cm f1 l = some a) (h2 : collectGo cm f2 l = some b) : a = b := by
  rcases Nat.le_total f1 f2 with h | h
  · have := collectGo_le cm f1 f2 l a h1 h
    rw [this] at h2
    exact (Option.some.injEq _ _).mp h2
  · have := collectGo_le cm f2 f1 l b h2 h
    rw [this] at h1
    exact ((Option.some.injEq _ _).mp h1).symm

theorem collectGo_eq_gacGo (s : TreeStore) :
    ∀ (fuel : Nat) (l : List ITreeItem),
      collectGo s.childrenMap fuel (l.map (fun c => c.id)) =
        (TreeStore.gacGo s fuel l).map (fun ds => ds.map (fun c => c.id)) := by
  intro fuel l
  induction fuel, l using TreeStore.gacGo.induct s with
  | case1 fuel => simp [collectGo, TreeStore.gacGo]
  | case2 c cs => simp [collectGo, TreeStore.gacGo]
  | case3 fuel c cs h1 ih1 =>
      have hch : ((mapGet s.childrenMap c.id).getD []).map (fun c => c.id) =
          (TreeStore.getChildren s c.id).map (fun c => c.id) := rfl
      simp only [List.map_cons, collectGo, TreeStore.gacGo, h1, hch, ih1,
        Option.map_none']
  | case4 fuel c cs rest h1 h2 ih1 ih2 =>
      have hch : ((mapGet s.childrenMap c.id).getD []).map (fun c => c.id) =
          (TreeStore.getChildren s c.id).map (fun c => c.id) := rfl
      simp only [List.map_cons, collectGo, TreeStore.gacGo, h1, h2, hch, ih1, ih2,
        Option.map_some', Option.map_none']
  | case5 fuel c cs rest h1 rest2 h2 ih1 ih2 =>
      have hch : ((mapGet s.childrenMap c.id).getD []).map (fun c => c.id) =
          (TreeStore.getChildren s c.id).map (fun c => c.id) := rfl
      simp only [List.map_cons, collectGo, TreeStore.gacGo, h1, h2, hch, ih1, ih2,
        Option.map_some']
      simp

theorem collectGo_self_loop (cm : EMap (List ITreeItem)) (i : Nat)
    (hi : i ∈ ((mapGet cm i).getD []).map (fun c => c.id)) :
    ∀ (fuel : Nat) (l : List Nat), i ∈ l → collectGo cm fuel l = none := by
  intro fuel
  induction fuel with
  | zero =>
      intro l hl
      cases l with
      | nil => cases hl
      | cons a t => simp [collectGo]
  | succ n ih =>
      intro l hl
      induction l with
      | nil => cases hl
      | cons j rest ihrest =>
          show collectGo cm (n + 1) (j :: rest) = none
          cases hcj : collectGo cm n (((mapGet cm j).getD []).map (fun c => c.id)) with
          | none => simp only [collectGo, hcj]
          | some ds =>
              rcases List.mem_cons.mp hl with rfl | hl2
              · rw [ih _ hi] at hcj
                cases hcj
              · simp only [collectGo, hcj, ih _ hl2]

/-! ### Concrete stores used in counterexamples and witnesses -/

/-- The six-record forest used throughout the repository's test suites:
ids 1..6 with parents null,1,1,2,2,3. -/
def mockItems : List ITreeItem :=
  [⟨1, none, "Root"⟩, ⟨2, some 1, "Child 1"⟩, ⟨3, some 1, "Child 2"⟩,
   ⟨4, some 2, "Grandchild 1"⟩, ⟨5, some 2, "Grandchild 2"⟩,
   ⟨6, some 3, "Grandchild 3"⟩]

def mockStore : TreeStore := TreeStore.update TreeStore.emptyStore mockItems

/-- A store whose two records reference each other as parents; `update`
(replace) builds it without complaint. -/
def cycStore : TreeStore :=
  TreeStore.update TreeStore.emptyStore [⟨1, some 2, "a"⟩, ⟨2, some 1, "b"⟩]

theorem cycWalk_none : ∀ (n : Nat),
    TreeStore.walkParents cycStore n (TreeStore.getItem cycStore 1) = none ∧
    TreeStore.walkParents cycStore n (TreeStore.getItem cycStore 2) = none := by
  intro n
  induction n with
  | zero => exact ⟨by decide, by decide⟩
  | succ n ih =>
      have e1 : TreeStore.getItem cycStore 1 = some ⟨1, some 2, "a"⟩ := by decide
      have e2 : TreeStore.getItem cycStore 2 = some ⟨2, some 1, "b"⟩ := by decide
      constructor
      · rw [e1]
        simp only [TreeStore.walkParents]
        simp only [ih.2]
      · rw [e2]
        simp only [TreeStore.walkParents]
        simp only [ih.1]

theorem cycGac_none : ∀ (n : Nat),
    TreeStore.gacGo cycStore n [⟨1, some 2, "a"⟩] = none ∧
    TreeStore.gacGo cycStore n [⟨2, some 1, "b"⟩] = none := by
  intro n
  induction n with
  | zero => exact ⟨by decide, by decide⟩
  | succ n ih =>
      have e1 : TreeStore.getChildren cycStore 1 = [⟨2, some 1, "b"⟩] := by decide
      have e2 : TreeStore.getChildren cycStore 2 = [⟨1, some 2, "a"⟩] := by decide
      constructor
      · simp only [TreeStore.gacGo]
        rw [e1]
        simp only [ih.2]
      · simp only [TreeStore.gacGo]
        rw [e2]
        simp only [ih.1]

/-- C5: the claim says `getAncestorChain` and `getDescendants` terminate on
every reachable store state, cyclic parent references included, thanks to
visited-set cycle guards.  The code has no such guards: on the cyclic
store built by `update` (replace) from two mutually-referencing records,
both the ancestor walk and the descendant recursion run forever — in the
fuel model they fail at every fuel. -/
theorem C5_cyclic_walks_diverge :
    (∀ (fuel : Nat), TreeStore.getAllParentsF cycStore fuel 1 = none) ∧
    (∀ (fuel : Nat), TreeStore.getAllChildrenF cycStore fuel 1 = none) := by
  constructor
  · intro fuel
    have hc : mapGet cycStore.parentChainCache 1 = none := by decide
    unfold TreeStore.getAllParentsF
    simp only [hc, (cycWalk_none fuel).1]
  · intro fuel
    have e1 : TreeStore.getChildren cycStore 1 = [⟨2, some 1, "b"⟩] := by decide
    unfold TreeStore.getAllChildrenF
    rw [e1]
    exact (cycGac_none fuel).2

/-- Base store holding a single record with id 1. -/
def dupStore : TreeStore := TreeStore.update TreeStore.emptyStore [⟨1, none, "a"⟩]

/-- The store after inserting a second record with the already-present id 1. -/
def dupStore2 : TreeStore :=
  (TreeStore.addItem dupStore 5 ⟨1, none, "b"⟩).getD TreeStore.emptyStore

/-- C1: the claim says `insert` of a record whose identifier is already
present fails with a conflict and leaves every index unchanged.  The code
has no duplicate check: `addItem` succeeds, leaves two entries with id 1
in the canonical sequence, and silently overwrites the id-index entry with
the new record — exactly the behavior §9 of the spec forbids. -/
theorem C1_duplicate_insert_overwrites :
    TreeStore.addItem dupStore 5 ⟨1, none, "b"⟩ = some dupStore2 ∧
    dupStore2.items = [⟨1, none, "a"⟩, ⟨1, none, "b"⟩] ∧
    TreeStore.getItem dupStore2 1 = some ⟨1, none, "b"⟩ := by decide

/-- C6: `getAllParents` called twice in succession with no intervening
mutation returns the same chain: the first call's result (and resulting
store, which may have gained the cache entry) is reproduced exactly by the
second call. -/
theorem C6_repeat_chain_equal (s : TreeStore) (fuel i : Nat) (l : List ITreeItem)
    (s2 : TreeStore) (h : TreeStore.getAllParentsF s fuel i = some (l, s2)) :
    TreeStore.getAllParentsF s2 fuel i = some (l, s2) := by
  unfold TreeStore.getAllParentsF at h ⊢
  cases hc : mapGet s.parentChainCache i with
  | some chain =>
      simp only [hc, Option.some.injEq] at h
      cases h
      simp only [hc]
  | none =>
      simp only [hc] at h
      cases hw : TreeStore.walkParents s fuel (TreeStore.getItem s i) with
      | none =>
          simp only [hw] at h
          exact Option.noConfusion h
      | some res =>
          simp only [hw, Option.some.injEq] at h
          cases h
          simp only [mapGet_mapSet_self]

def c6res : List ITreeItem × TreeStore :=
  (TreeStore.getAllParentsF mockStore 10 4).getD ([], mockStore)

/-- Witness for C6 on the test-suite store, querying id 4. -/
theorem C6_repeat_chain_equal_witness :
    TreeStore.getAllParentsF c6res.2 10 4 = some (c6res.1, c6res.2) :=
  C6_repeat_chain_equal mockStore 10 4 c6res.1 c6res.2 (by decide)

/-- C2 amended: on a cache miss (no `parentChainCache` entry for `i`),
a successful `getAllParents(i)` returns exactly the chain the claim
describes: it starts at the stored record, follows parent links, and stops
at a root or at a record whose parent id resolves to nothing; for an
unknown id it returns the empty list. -/
theorem C2_chain_correct_on_cache_miss (s : TreeStore) (fuel i : Nat)
    (l : List ITreeItem) (s2 : TreeStore)
    (hmiss : mapGet s.parentChainCache i = none)
    (h : TreeStore.getAllParentsF s fuel i = some (l, s2)) :
    ChainFrom s (TreeStore.getItem s i) l ∧
    (TreeStore.getItem s i = none → l = []) := by
  unfold TreeStore.getAllParentsF at h
  simp only [hmiss] at h
  cases hw : TreeStore.walkParents s fuel (TreeStore.getItem s i) with
  | none =>
      simp only [hw] at h
      exact Option.noConfusion h
  | some res =>
      simp only [hw, Option.some.injEq] at h
      cases h
      have hc := walkParents_chainFrom s fuel _ _ hw
      refine ⟨hc, fun hn => ?_⟩
      rw [hn] at hc
      cases hc
      rfl

def c2wit : List ITreeItem × TreeStore :=
  (TreeStore.getAllParentsF mockStore 10 4).getD ([], mockStore)

/-- Witness for C2's amended theorem on the test-suite store: the chain of
id 4 computed on a cache miss satisfies the specified chain shape. -/
theorem C2_chain_correct_on_cache_miss_witness :
    ChainFrom mockStore (TreeStore.getItem mockStore 4) c2wit.1 ∧
    (TreeStore.getItem mockStore 4 = none → c2wit.1 = []) :=
  C2_chain_correct_on_cache_miss mockStore 10 4 c2wit.1 c2wit.2 (by decide) (by decide)

/-- Empty store, an orphan (parent id 5 unresolved) inserted, its chain
queried (and therefore cached), and then the missing parent inserted as a
root: `addItem` with `parent = null` triggers no cache invalidation. -/
def orphStore1 : TreeStore :=
  (TreeStore.addItem (TreeStore.update TreeStore.emptyStore []) 5 ⟨2, some 5, "b"⟩).getD
    TreeStore.emptyStore

def orphStore2 : TreeStore :=
  ((TreeStore.getAllParentsF orphStore1 5 2).map (fun r => r.2)).getD TreeStore.emptyStore

def orphStore3 : TreeStore :=
  (TreeStore.addItem orphStore2 5 ⟨5, none, "a"⟩).getD TreeStore.emptyStore

/-- C2 counterexample: after inserting orphan 2 (parent 5 missing),
querying its chain, and then inserting record 5 as a root, the store still
serves the stale cached chain `[2]` for id 2 even though record 5 is now
stored and resolvable as 2's parent — the returned list is not a chain
"ending at the furthest reachable ancestor" as the claim requires, because
the walk-stop condition (parent lookup fails) does not hold at its last
element. -/
theorem C2_counterexample :
    TreeStore.getAllParentsF orphStore3 5 2 = some ([⟨2, some 5, "b"⟩], orphStore3) ∧
    TreeStore.getItem orphStore3 5 = some ⟨5, none, "a"⟩ ∧
    ¬ ChainFrom orphStore3 (TreeStore.getItem orphStore3 2) [⟨2, some 5, "b"⟩] := by
  refine ⟨by decide, by decide, ?_⟩
  intro h
  have hg : TreeStore.getItem orphStore3 2 = some ⟨2, some 5, "b"⟩ := by decide
  rw [hg] at h
  cases h with
  | root it hroot => exact Option.noConfusion hroot
  | step it p rest hp hc =>
      have hp5 : p = 5 := by
        have := hp
        simp at this
        exact this.symm
      subst hp5
      have h5 : TreeStore.getItem orphStore3 5 = some ⟨5, none, "a"⟩ := by decide
      rw [h5] at hc
      cases hc

/-- `invalidateRec` deletes exactly the cache entries of the ids collected
by the children-map traversal, and nothing else in the store changes. -/
theorem invalidateRec_eq (s : TreeStore) (fuel i : Nat) :
    TreeStore.invalidateRec s fuel i =
      (collectGo s.childrenMap fuel [i]).map
        (fun ids => { s with parentChainCache := deleteAll s.parentChainCache ids }) := by
  unfold TreeStore.invalidateRec
  rw [invGo_eq_collectGo]
  cases collectGo s.childrenMap fuel [i] with
  | none => rfl
  | some ids => rfl

/-- A store already holding a children-map entry for id 5 (created for the
orphan record 2 whose parent is 5). -/
def preChildStore : TreeStore :=
  TreeStore.update TreeStore.emptyStore [⟨2, some 5, "b"⟩]

def preChildStore2 : TreeStore :=
  (TreeStore.addItem preChildStore 5 ⟨5, none, "a"⟩).getD TreeStore.emptyStore

/-- C9 counterexample: inserting record 5 into a store that already has a
children-map entry for id 5 (record 2 was registered under its dangling
parent 5 by the rebuild) does not clear that entry: immediately after the
successful insert, `getChildren(5)` is `[record 2]`, not the empty list
the claim requires. -/
theorem C9_counterexample :
    TreeStore.addItem preChildStore 5 ⟨5, none, "a"⟩ = some preChildStore2 ∧
    TreeStore.getChildren preChildStore2 5 = [⟨2, some 5, "b"⟩] ∧
    TreeStore.getChildren preChildStore2 5 ≠ [] := by decide

/-- C9 amended: immediately after a successful `addItem`, the children
list of the new record's id is empty provided no children-map entry for
that id existed before the insert (a pre-existing entry — created when
earlier records named this id as their parent — is preserved, not
cleared). -/
theorem C9_insert_fresh_children_empty (s : TreeStore) (fuel : Nat)
    (item : ITreeItem) (s2 : TreeStore)
    (hfresh : mapGet s.childrenMap item.id = none)
    (hadd : TreeStore.addItem s fuel item = some s2) :
    TreeStore.getChildren s2 item.id = [] := by
  unfold TreeStore.addItem at hadd
  cases hp : item.parent with
  | none =>
      simp only [hp, mapHas, hfresh, Option.isSome_none, Bool.false_eq_true,
        if_false, Option.some.injEq] at hadd
      subst hadd
      show (mapGet (mapSet s.childrenMap item.id []) item.id).getD [] = []
      rw [mapGet_mapSet_self]
      rfl
  | some p =>
      simp only [hp] at hadd
      rw [invalidateRec_eq] at hadd
      by_cases hpi : p = item.id
      · subst hpi
        have hmem : item.id ∈
            ((mapGet (mapSet s.childrenMap item.id
                ((mapGet s.childrenMap item.id).getD [] ++ [item])) item.id).getD []).map
              (fun c => c.id) := by
          rw [mapGet_mapSet_self, hfresh]
          simp
        have hloop := collectGo_self_loop _ item.id hmem fuel [item.id]
          (List.mem_cons_self item.id [])
        rw [hloop] at hadd
        exact Option.noConfusion hadd
      · cases hcg : collectGo
            (mapSet s.childrenMap p ((mapGet s.childrenMap p).getD [] ++ [item]))
            fuel [p] with
        | none =>
            rw [hcg] at hadd
            exact Option.noConfusion hadd
        | some ids =>
            rw [hcg] at hadd
            have hget : mapGet (mapSet s.childrenMap p
                ((mapGet s.childrenMap p).getD [] ++ [item])) item.id = none := by
              rw [mapGet_mapSet_other _ _ _ _ (fun hh => hpi hh.symm)]
              exact hfresh
            simp only [Option.map_some', mapHas, hget, Option.isSome_none,
              Bool.false_eq_true, if_false, Option.some.injEq] at hadd
            subst hadd
            show (mapGet (mapSet _ item.id []) item.id).getD [] = []
            rw [mapGet_mapSet_self]
            rfl

def freshInsStore : TreeStore :=
  (TreeStore.addItem mockStore 10 ⟨7, some 1, "x"⟩).getD TreeStore.emptyStore

/-- Witness for C9's amended theorem: inserting the fresh record 7 under
parent 1 in the test-suite store leaves it with an empty children list. -/
theorem C9_insert_fresh_children_empty_witness :
    TreeStore.getChildren freshInsStore 7 = [] :=
  C9_insert_fresh_children_empty mockStore 10 ⟨7, some 1, "x"⟩ freshInsStore
    (by decide) (by decide)

def multiRootItems : List ITreeItem :=
  [⟨1, none, "Root 1"⟩, ⟨2, none, "Root 2"⟩, ⟨3, some 1, "c1"⟩, ⟨4, some 2, "c2"⟩]

def multiRootStore : TreeStore := TreeStore.update TreeStore.emptyStore multiRootItems

/-- C7: `sortTreeItemsDFS` starts exclusively from the roots
(`parent === null`) of the input sequence, in their given order (the
output is unchanged when the input is pre-filtered to its roots), and on
the two record sets named by the claim it emits each root followed
pre-order by its children: ids `[1,2,4,5,3,6]` and `[1,3,2,4]`. -/
theorem C7_depth_first_order :
    (∀ (s : TreeStore) (fuel : Nat) (its : List ITreeItem),
        sortTreeItemsDFSF s fuel its =
          sortTreeItemsDFSF s fuel (its.filter (fun it => it.parent.isNone))) ∧
    (sortTreeItemsDFSF mockStore 10 mockItems).map (fun l => l.map (fun c => c.id)) =
      some [1, 2, 4, 5, 3, 6] ∧
    (sortTreeItemsDFSF multiRootStore 10 multiRootItems).map
        (fun l => l.map (fun c => c.id)) =
      some [1, 3, 2, 4] := by
  refine ⟨?_, by decide, by decide⟩
  intro s fuel its
  unfold sortTreeItemsDFSF
  rw [List.filter_filter]
  simp only [Bool.and_self]

/-- Replacing the first occurrence of `x` by `y` (with `x.id = y.id`)
leaves the sublist of records with any other id unchanged. -/
theorem replaceFirst_filter_ne (l : List ITreeItem) (x y : ITreeItem) (j : Nat)
    (hx : x.id = y.id) (hj : j ≠ y.id) :
    (TreeStore.replaceFirst l x y).filter (fun it => decide (it.id = j)) =
      l.filter (fun it => decide (it.id = j)) := by
  induction l with
  | nil => rfl
  | cons c cs ih =>
      by_cases hc : c = x
      · subst hc
        have hyj : ¬ (y.id = j) := fun hh => hj hh.symm
        have hcj : ¬ (c.id = j) := fun hh => hj (hx ▸ hh).symm
        simp [TreeStore.replaceFirst, List.filter_cons, hyj, hcj]
      · simp only [TreeStore.replaceFirst, if_neg hc, List.filter_cons, ih]

/-- C8: `updateItem` with an unchanged parent field touches only the
stored record value for that id: the children map and the ancestor-chain
cache are exactly what they were, the id index is unchanged at every other
id, and the canonical sequence restricted to any other id is unchanged. -/
theorem C8_update_unchanged_parent_frame (s : TreeStore) (fuel : Nat)
    (u ex : ITreeItem) (s2 : TreeStore)
    (hex : TreeStore.getItem s u.id = some ex)
    (hid : ex.id = u.id)
    (hpar : ex.parent = u.parent)
    (hup : TreeStore.updateItem s fuel u = some (true, s2)) :
    s2.childrenMap = s.childrenMap ∧
    s2.parentChainCache = s.parentChainCache ∧
    TreeStore.getItem s2 u.id = some u ∧
    (∀ j, j ≠ u.id → TreeStore.getItem s2 j = TreeStore.getItem s j) ∧
    (∀ j, j ≠ u.id →
      s2.items.filter (fun it => decide (it.id = j)) =
        s.items.filter (fun it => decide (it.id = j))) := by
  unfold TreeStore.updateItem at hup
  simp only [hex, if_pos hpar, Option.some.injEq, Prod.mk.injEq, true_and] at hup
  subst hup
  refine ⟨rfl, rfl, ?_, ?_, ?_⟩
  · show mapGet (mapSet s.itemsMap u.id u) u.id = some u
    exact mapGet_mapSet_self _ _ _
  · intro j hjn
    show mapGet (mapSet s.itemsMap u.id u) j = mapGet s.itemsMap j
    exact mapGet_mapSet_other _ _ _ _ hjn
  · intro j hjn
    exact replaceFirst_filter_ne s.items ex u j (by rw [hid]) hjn

def labelUpdStore : TreeStore :=
  ((TreeStore.updateItem mockStore 10 ⟨4, some 2, "New Label Only"⟩).map (fun r => r.2)).getD
    TreeStore.emptyStore

/-- Witness for C8: a label-only update of record 4 in the test-suite
store leaves both derived maps, the id index at id 3, and the canonical
sequence restricted to id 3 unchanged. -/
theorem C8_update_unchanged_parent_frame_witness :
    labelUpdStore.childrenMap = mockStore.childrenMap ∧
    labelUpdStore.parentChainCache = mockStore.parentChainCache ∧
    TreeStore.getItem labelUpdStore 4 = some ⟨4, some 2, "New Label Only"⟩ ∧
    TreeStore.getItem labelUpdStore 3 = TreeStore.getItem mockStore 3 ∧
    labelUpdStore.items.filter (fun it => decide (it.id = 3)) =
      mockStore.items.filter (fun it => decide (it.id = 3)) :=
  have h := C8_update_unchanged_parent_frame mockStore 10
    ⟨4, some 2, "New Label Only"⟩ ⟨4, some 2, "Grandchild 1"⟩ labelUpdStore
    (by decide) (by decide) (by decide) (by decide)
  ⟨h.1, h.2.1, h.2.2.1, h.2.2.2.1 3 (by decide), h.2.2.2.2 3 (by decide)⟩

/-- C10: after a parent-preserving update that changes only the label,
the id index serves the new record value while the parent's children list
still holds the old value — the children index entry is not refreshed. -/
theorem C10_stale_children_after_label_update (s : TreeStore) (fuel p : Nat)
    (u ex : ITreeItem) (s2 : TreeStore)
    (hex : TreeStore.getItem s u.id = some ex)
    (hpar : ex.parent = u.parent)
    (hmem : ex ∈ TreeStore.getChildren s p)
    (hlab : ex.label ≠ u.label)
    (hup : TreeStore.updateItem s fuel u = some (true, s2)) :
    TreeStore.getItem s2 u.id = some u ∧
    ex ∈ TreeStore.getChildren s2 p ∧ ex ≠ u := by
  unfold TreeStore.updateItem at hup
  simp only [hex, if_pos hpar, Option.some.injEq, Prod.mk.injEq, true_and] at hup
  subst hup
  exact ⟨mapGet_mapSet_self _ _ _, hmem, fun hh => hlab (hh ▸ rfl)⟩

def labelUpdStore2 : TreeStore :=
  ((TreeStore.updateItem mockStore 10 ⟨4, some 2, "X"⟩).map (fun r => r.2)).getD
    TreeStore.emptyStore

/-- Witness for C10 on the test-suite store: record 4's label is updated,
`getItem` returns the new value, yet the children list of its parent 2
still contains the old value. -/
theorem C10_stale_children_after_label_update_witness :
    TreeStore.getItem labelUpdStore2 4 = some ⟨4, some 2, "X"⟩ ∧
    ⟨4, some 2, "Grandchild 1"⟩ ∈ TreeStore.getChildren labelUpdStore2 2 ∧
    (⟨4, some 2, "Grandchild 1"⟩ : ITreeItem) ≠ ⟨4, some 2, "X"⟩ :=
  C10_stale_children_after_label_update mockStore 10 2
    ⟨4, some 2, "X"⟩ ⟨4, some 2, "Grandchild 1"⟩ labelUpdStore2
    (by decide) (by decide) (by decide) (by decide) (by decide)

/-! ### Removal helper lemmas -/

theorem foldl_removeOne_components (l : List ITreeItem) (st : TreeStore) :
    (l.foldl TreeStore.removeOne st).items =
        l.foldl TreeStore.eraseFirstItem st.items ∧
    (l.foldl TreeStore.removeOne st).itemsMap =
        deleteAll st.itemsMap (l.map (fun it => it.id)) ∧
    (l.foldl TreeStore.removeOne st).childrenMap =
        deleteAll st.childrenMap (l.map (fun it => it.id)) ∧
    (l.foldl TreeStore.removeOne st).parentChainCache =
        deleteAll st.parentChainCache (l.map (fun it => it.id)) := by
  induction l generalizing st with
  | nil => exact ⟨rfl, rfl, rfl, rfl⟩
  | cons x rest ih => exact ih (TreeStore.removeOne st x)

theorem eraseFirstItem_sublist (l : List ITreeItem) (x : ITreeItem) :
    (TreeStore.eraseFirstItem l x).Sublist l := by
  induction l with
  | nil => exact List.Sublist.refl []
  | cons c cs ih =>
      by_cases hc : c = x
      · simp only [TreeStore.eraseFirstItem, if_pos hc]
        exact List.sublist_cons_self c cs
      · simp only [TreeStore.eraseFirstItem, if_neg hc]
        exact List.Sublist.cons₂ c ih

theorem foldl_eraseFirstItem_sublist (l : List ITreeItem) (items : List ITreeItem) :
    (l.foldl TreeStore.eraseFirstItem items).Sublist items := by
  induction l generalizing items with
  | nil => exact List.Sublist.refl items
  | cons x rest ih =>
      exact (ih (TreeStore.eraseFirstItem items x)).trans (eraseFirstItem_sublist items x)

theorem not_mem_eraseFirstItem (l : List ITreeItem) (x : ITreeItem)
    (hnd : l.Nodup) : x ∉ TreeStore.eraseFirstItem l x := by
  induction l with
  | nil => simp [TreeStore.eraseFirstItem]
  | cons c cs ih =>
      by_cases hc : c = x
      · subst hc
        simp only [TreeStore.eraseFirstItem, if_pos rfl]
        exact (List.nodup_cons.mp hnd).1
      · simp only [TreeStore.eraseFirstItem, if_neg hc]
        intro hmem
        rcases List.mem_cons.mp hmem with rfl | hmem2
        · exact hc rfl
        · exact ih (List.nodup_cons.mp hnd).2 hmem2

theorem mem_eraseFirstItem_of_ne (l : List ITreeItem) (x y : ITreeItem)
    (hne : y ≠ x) (hy : y ∈ l) : y ∈ TreeStore.eraseFirstItem l x := by
  induction l with
  | nil => cases hy
  | cons c cs ih =>
      by_cases hc : c = x
      · subst hc
        simp only [TreeStore.eraseFirstItem, if_pos rfl]
        rcases List.mem_cons.mp hy with rfl | hy2
        · exact absurd rfl hne
        · exact hy2
      · simp only [TreeStore.eraseFirstItem, if_neg hc]
        rcases List.mem_cons.mp hy with rfl | hy2
        · exact List.mem_cons_self y _
        · exact List.mem_cons_of_mem c (ih hy2)

theorem foldl_erase_not_mem (toRem : List ITreeItem) :
    ∀ (items : List ITreeItem), items.Nodup → toRem.Nodup →
      (∀ it ∈ toRem, it ∈ items) →
      ∀ it ∈ toRem, it ∉ toRem.foldl TreeStore.eraseFirstItem items := by
  induction toRem with
  | nil => intro items _ _ _ it hit; cases hit
  | cons x rest ih =>
      intro items hnd hndr hsub it hit
      have hx1 : x ∉ TreeStore.eraseFirstItem items x := not_mem_eraseFirstItem items x hnd
      have hndr2 := List.nodup_cons.mp hndr
      rcases List.mem_cons.mp hit with rfl | hit2
      · show it ∉ rest.foldl TreeStore.eraseFirstItem (TreeStore.eraseFirstItem items it)
        intro hmem
        exact hx1 ((foldl_eraseFirstItem_sublist rest _).subset hmem)
      · show it ∉ rest.foldl TreeStore.eraseFirstItem (TreeStore.eraseFirstItem items x)
        refine ih (TreeStore.eraseFirstItem items x)
          ((eraseFirstItem_sublist items x).nodup hnd) hndr2.2 ?_ it hit2
        intro y hy
        exact mem_eraseFirstItem_of_ne items x y
          (fun hh => hndr2.1 (hh ▸ hy)) (hsub y (List.mem_cons_of_mem x hy))

theorem eraseFirstById_no_id (l : List ITreeItem) (cid : Nat)
    (h : l.countP (fun c => decide (c.id = cid)) ≤ 1) :
    ∀ c ∈ TreeStore.eraseFirstById l cid, c.id ≠ cid := by
  induction l with
  | nil => intro c hc; cases hc
  | cons a t ih =>
      by_cases ha : a.id = cid
      · simp only [TreeStore.eraseFirstById, if_pos ha]
        intro c hc hcid
        have h2 : ∀ x ∈ t, ¬ x.id = cid := by
          simp [List.countP_cons, ha] at h
          exact h
        exact h2 c hc hcid
      · simp only [TreeStore.eraseFirstById, if_neg ha]
        intro c hc
        rcases List.mem_cons.mp hc with rfl | hc2
        · exact ha
        · refine ih ?_ c hc2
          simp [List.countP_cons, ha] at h
          exact h

theorem removeFromChildrenMap_frame (s : TreeStore) (a b : Nat) :
    (TreeStore.removeFromChildrenMap s a b).items = s.items ∧
    (TreeStore.removeFromChildrenMap s a b).itemsMap = s.itemsMap ∧
    (TreeStore.removeFromChildrenMap s a b).parentChainCache = s.parentChainCache := by
  unfold TreeStore.removeFromChildrenMap
  cases mapGet s.childrenMap a with
  | none => exact ⟨rfl, rfl, rfl⟩
  | some ch => exact ⟨rfl, rfl, rfl⟩

theorem removeFromChildrenMap_cm_other (s : TreeStore) (a b j : Nat) (hj : j ≠ a) :
    mapGet (TreeStore.removeFromChildrenMap s a b).childrenMap j =
      mapGet s.childrenMap j := by
  unfold TreeStore.removeFromChildrenMap
  cases h : mapGet s.childrenMap a with
  | none => rfl
  | some ch => exact mapGet_mapSet_other _ _ _ _ hj

theorem removeFromChildrenMap_cm_self (s : TreeStore) (a b : Nat) :
    mapGet (TreeStore.removeFromChildrenMap s a b).childrenMap a =
      (mapGet s.childrenMap a).map (fun ch => TreeStore.eraseFirstById ch b) := by
  unfold TreeStore.removeFromChildrenMap
  cases h : mapGet s.childrenMap a with
  | none => simp [h]
  | some ch =>
      simp only [h, Option.map_some']
      exact mapGet_mapSet_self _ _ _

/-- `removeItem` of a nonexistent id reports `false` and returns the store
untouched. -/
theorem removeItem_notfound (t : TreeStore) (f j : Nat)
    (h : TreeStore.getItem t j = none) :
    TreeStore.removeItem t f j = some (false, t) := by
  unfold TreeStore.removeItem
  simp only [h]

def staleBase : TreeStore :=
  TreeStore.update TreeStore.emptyStore [⟨1, none, "R"⟩, ⟨2, some 1, "C"⟩]

def staleUpd : TreeStore :=
  ((TreeStore.updateItem staleBase 10 ⟨2, some 1, "C2"⟩).map (fun r => r.2)).getD
    TreeStore.emptyStore

def staleRem : TreeStore :=
  ((TreeStore.removeItem staleUpd 10 1).map (fun r => r.2)).getD TreeStore.emptyStore

/-- C4 counterexample: after a parent-preserving update of record 2 (label
"C" → "C2"), the children index of 1 still holds the old value of record
2.  `removeItem(1)` then collects that old value as the descendant to
splice out of the canonical sequence, finds no such element there
(`indexOf` misses, since the array holds the updated value), and leaves
record 2 in the canonical sequence even though the removal reports success
and deletes it from the id index. -/
theorem C4_counterexample :
    TreeStore.removeItem staleUpd 10 1 = some (true, staleRem) ∧
    staleRem.items = [⟨2, some 1, "C2"⟩] ∧
    TreeStore.getItem staleRem 2 = none := by decide

/-- C4 amended: `removeItem` of an existing record deletes the record and
every collected descendant from the id index, the children index and the
ancestor-chain cache, and unlinks the record's id from its former parent's
children list (when that list held the id at most once); the record and
descendants disappear from the canonical sequence provided the collected
values are distinct and actually present in it — which fails when a
parent-preserving update replaced a descendant's value, see the
counterexample.  Removal of a nonexistent id reports not-found and
performs no mutation. -/
theorem C4_remove_cascade (s : TreeStore) (fuel i : Nat) (item : ITreeItem)
    (ds : List ITreeItem) (s2 : TreeStore)
    (hitem : TreeStore.getItem s i = some item)
    (hds : TreeStore.getAllChildrenF s fuel i = some ds)
    (hrm : TreeStore.removeItem s fuel i = some (true, s2)) :
    (∀ (t : TreeStore) (f j : Nat), TreeStore.getItem t j = none →
        TreeStore.removeItem t f j = some (false, t)) ∧
    (∀ it ∈ item :: ds,
        TreeStore.getItem s2 it.id = none ∧
        mapGet s2.childrenMap it.id = none ∧
        mapGet s2.parentChainCache it.id = none) ∧
    (s.items.Nodup → (item :: ds).Nodup → (∀ it ∈ item :: ds, it ∈ s.items) →
        ∀ it ∈ item :: ds, it ∉ s2.items) ∧
    (∀ p, item.parent = some p →
        (TreeStore.getChildren s p).countP (fun c => decide (c.id = i)) ≤ 1 →
        ∀ c ∈ TreeStore.getChildren s2 p, c.id ≠ i) := by
  obtain ⟨hI, hM, hC, hP⟩ := foldl_removeOne_components (item :: ds) s
  unfold TreeStore.removeItem at hrm
  simp only [hitem, hds] at hrm
  cases hp : item.parent with
  | none =>
      simp only [hp, Option.some.injEq, Prod.mk.injEq, true_and] at hrm
      subst hrm
      refine ⟨removeItem_notfound, ?_, ?_, ?_⟩
      · intro it hit
        have hmem : it.id ∈ (item :: ds).map (fun x => x.id) :=
          List.mem_map.mpr ⟨it, hit, rfl⟩
        refine ⟨?_, ?_, ?_⟩
        · show mapGet ((item :: ds).foldl TreeStore.removeOne s).itemsMap it.id = none
          rw [hM]
          exact mapGet_deleteAll_mem _ _ _ hmem
        · rw [hC]
          exact mapGet_deleteAll_mem _ _ _ hmem
        · rw [hP]
          exact mapGet_deleteAll_mem _ _ _ hmem
      · intro hnd hndr hsub it hit
        show it ∉ ((item :: ds).foldl TreeStore.removeOne s).items
        rw [hI]
        exact foldl_erase_not_mem (item :: ds) s.items hnd hndr hsub it hit
      · intro p' hp' _ _ _
        exact Option.noConfusion hp'
  | some p =>
      simp only [hp] at hrm
      cases hinv : TreeStore.invalidateRec
          (TreeStore.removeFromChildrenMap ((item :: ds).foldl TreeStore.removeOne s) p i)
          fuel p with
      | none =>
          rw [hinv] at hrm
          exact absurd hrm (by simp)
      | some s3 =>
          rw [hinv] at hrm
          simp only [Option.some.injEq, Prod.mk.injEq, true_and] at hrm
          subst hrm
          rw [invalidateRec_eq] at hinv
          cases hcg : collectGo
              (TreeStore.removeFromChildrenMap
                ((item :: ds).foldl TreeStore.removeOne s) p i).childrenMap
              fuel [p] with
          | none =>
              rw [hcg] at hinv
              exact absurd hinv (by simp)
          | some ids =>
              rw [hcg] at hinv
              simp only [Option.map_some', Option.some.injEq] at hinv
              subst hinv
              obtain ⟨hFI, hFM, hFP⟩ := removeFromChildrenMap_frame
                ((item :: ds).foldl TreeStore.removeOne s) p i
              refine ⟨removeItem_notfound, ?_, ?_, ?_⟩
              · intro it hit
                have hmem : it.id ∈ (item :: ds).map (fun x => x.id) :=
                  List.mem_map.mpr ⟨it, hit, rfl⟩
                refine ⟨?_, ?_, ?_⟩
                · show mapGet (TreeStore.removeFromChildrenMap
                      ((item :: ds).foldl TreeStore.removeOne s) p i).itemsMap it.id = none
                  rw [hFM, hM]
                  exact mapGet_deleteAll_mem _ _ _ hmem
                · show mapGet (TreeStore.removeFromChildrenMap
                      ((item :: ds).foldl TreeStore.removeOne s) p i).childrenMap it.id = none
                  by_cases hip : it.id = p
                  · subst hip
                    rw [removeFromChildrenMap_cm_self]
                    rw [hC, mapGet_deleteAll_mem _ _ _ hmem]
                    rfl
                  · rw [removeFromChildrenMap_cm_other _ _ _ _ hip, hC]
                    exact mapGet_deleteAll_mem _ _ _ hmem
                · show mapGet (deleteAll (TreeStore.removeFromChildrenMap
                      ((item :: ds).foldl TreeStore.removeOne s) p i).parentChainCache ids)
                      it.id = none
                  apply mapGet_deleteAll_none
                  rw [hFP, hP]
                  exact mapGet_deleteAll_mem _ _ _ hmem
              · intro hnd hndr hsub it hit
                show it ∉ (TreeStore.removeFromChildrenMap
                    ((item :: ds).foldl TreeStore.removeOne s) p i).items
                rw [hFI, hI]
                exact foldl_erase_not_mem (item :: ds) s.items hnd hndr hsub it hit
              · intro p' hp' hcount c hcmem
                have hpp : p = p' := Option.some.inj hp'
                subst hpp
                have hcmem2 : c ∈ (mapGet (TreeStore.removeFromChildrenMap
                    ((item :: ds).foldl TreeStore.removeOne s) p i).childrenMap p).getD [] :=
                  hcmem
                rw [removeFromChildrenMap_cm_self] at hcmem2
                cases hch : mapGet ((item :: ds).foldl TreeStore.removeOne s).childrenMap p with
                | none =>
                    rw [hch] at hcmem2
                    cases hcmem2
                | some ch1 =>
                    rw [hch] at hcmem2
                    have hnotin : p ∉ (item :: ds).map (fun x => x.id) := by
                      intro hin
                      rw [hC, mapGet_deleteAll_mem _ _ _ hin] at hch
                      exact Option.noConfusion hch
                    have hchS : mapGet s.childrenMap p = some ch1 := by
                      rw [hC, mapGet_deleteAll_not_mem _ _ _ hnotin] at hch
                      exact hch
                    have hgc : TreeStore.getChildren s p = ch1 := by
                      unfold TreeStore.getChildren
                      rw [hchS]
                      rfl
                    rw [hgc] at hcount
                    exact eraseFirstById_no_id ch1 i hcount c hcmem2

def remStore : TreeStore :=
  ((TreeStore.removeItem mockStore 10 2).map (fun r => r.2)).getD TreeStore.emptyStore

/-- Witness for C4's amended theorem: removing record 2 from the
test-suite store purges 2, 4 and 5 from all indices and the canonical
sequence and unlinks id 2 from the children of 1. -/
theorem C4_remove_cascade_witness :
    TreeStore.getItem remStore 2 = none ∧
    mapGet remStore.childrenMap 4 = none ∧
    mapGet remStore.parentChainCache 5 = none ∧
    (⟨2, some 1, "Child 1"⟩ : ITreeItem) ∉ remStore.items ∧
    (∀ c ∈ TreeStore.getChildren remStore 1, c.id ≠ 2) :=
  have h := C4_remove_cascade mockStore 10 2 ⟨2, some 1, "Child 1"⟩
    [⟨4, some 2, "Grandchild 1"⟩, ⟨5, some 2, "Grandchild 2"⟩] remStore
    (by decide) (by decide) (by decide)
  ⟨(h.2.1 ⟨2, some 1, "Child 1"⟩ (by decide)).1,
   (h.2.1 ⟨4, some 2, "Grandchild 1"⟩ (by decide)).2.1,
   (h.2.1 ⟨5, some 2, "Grandchild 2"⟩ (by decide)).2.2,
   h.2.2.1 (by decide) (by decide) (by decide) ⟨2, some 1, "Child 1"⟩ (by decide),
   h.2.2.2 1 (by decide) (by decide)⟩

/-- On a cache miss, a successful `getAllParents` returns a chain of the
specified shape (helper shared by several developments). -/
theorem getAllParentsF_miss_chain (s : TreeStore) (fuel i : Nat)
    (l : List ITreeItem) (s2 : TreeStore)
    (hmiss : mapGet s.parentChainCache i = none)
    (h : TreeStore.getAllParentsF s fuel i = some (l, s2)) :
    ChainFrom s (TreeStore.getItem s i) l := by
  unfold TreeStore.getAllParentsF at h
  simp only [hmiss] at h
  cases hw : TreeStore.walkParents s fuel (TreeStore.getItem s i) with
  | none =>
      simp only [hw] at h
      exact Option.noConfusion h
  | some res =>
      simp only [hw, Option.some.injEq] at h
      cases h
      exact walkParents_chainFrom s fuel _ _ hw

/-- A successful `invalidateRec` leaves the array and the other two maps
unchanged and deletes from the cache exactly the ids collected by the
children-map traversal. -/
theorem invalidateRec_some (s : TreeStore) (fuel i : Nat) (t : TreeStore)
    (h : TreeStore.invalidateRec s fuel i = some t) :
    t.items = s.items ∧ t.itemsMap = s.itemsMap ∧ t.childrenMap = s.childrenMap ∧
    ∃ ids, collectGo s.childrenMap fuel [i] = some ids ∧
      t.parentChainCache = deleteAll s.parentChainCache ids := by
  rw [invalidateRec_eq] at h
  cases hcg : collectGo s.childrenMap fuel [i] with
  | none =>
      rw [hcg] at h
      exact absurd h (by simp)
  | some ids =>
      rw [hcg] at h
      simp only [Option.map_some', Option.some.injEq] at h
      subst h
      exact ⟨rfl, rfl, rfl, ids, rfl, rfl⟩

theorem collectGo_singleton (cm : EMap (List ITreeItem)) (n j0 : Nat)
    (ds' : List Nat)
    (h : collectGo cm n (((mapGet cm j0).getD []).map (fun c => c.id)) = some ds') :
    collectGo cm (n + 1) [j0] = some (j0 :: (ds' ++ [])) := by
  simp only [collectGo, h]

/-- After a successful `invalidateRec` on id `j0`, the resulting store has
no cache entry for `j0` or for any id of the descendant list its own
`getAllChildren` reports, and the next ancestor-chain read for any of
those ids computes a chain of the specified shape. -/
theorem finalInv_cache_clear (s4 s5 : TreeStore) (fuel j0 : Nat)
    (h : TreeStore.invalidateRec s4 fuel j0 = some s5) :
    ∀ (n : Nat) (ds : List ITreeItem), TreeStore.getAllChildrenF s5 n j0 = some ds →
      ∀ j ∈ j0 :: ds.map (fun d => d.id),
        mapGet s5.parentChainCache j = none ∧
        (∀ (m : Nat) (l : List ITreeItem) (t : TreeStore),
            TreeStore.getAllParentsF s5 m j = some (l, t) →
            ChainFrom s5 (TreeStore.getItem s5 j) l) := by
  obtain ⟨hI4, hM4, hC4, ids, hcg, hCa⟩ := invalidateRec_some _ _ _ _ h
  intro n ds hds j hj
  unfold TreeStore.getAllChildrenF at hds
  have hF := collectGo_eq_gacGo s5 n (TreeStore.getChildren s5 j0)
  rw [hds] at hF
  simp only [Option.map_some', TreeStore.getChildren] at hF
  have hsing : collectGo s5.childrenMap (n + 1) [j0] =
      some (j0 :: (ds.map (fun c => c.id) ++ [])) :=
    collectGo_singleton s5.childrenMap n j0 (ds.map (fun c => c.id)) hF
  rw [hC4] at hsing
  have hids : ids = j0 :: (ds.map (fun c => c.id) ++ []) :=
    collectGo_det s4.childrenMap fuel (n + 1) [j0] ids _ hcg hsing
  have hjids : j ∈ ids := by
    rw [hids]
    simpa using hj
  have hnone : mapGet s5.parentChainCache j = none := by
    rw [hCa]
    exact mapGet_deleteAll_mem _ _ _ hjids
  refine ⟨hnone, ?_⟩
  intro m l t hgp
  exact getAllParentsF_miss_chain s5 m j l t hnone hgp

/-- C3: after `updateItem` changes the parent field of an existing record,
the new parent's children list contains the updated record, the old
parent's children list no longer holds its id (when it held it at most
once), and the ancestor-chain cache holds no entry for the record or for
any descendant its own `getAllChildren` reports, so the next
`getAllParents` read for each of them recomputes a chain of the specified
shape against the new state (no stale cached chain is served). -/
theorem C3_reparent_coherence (s : TreeStore) (fuel : Nat) (u ex : ITreeItem)
    (s2 : TreeStore)
    (hex : TreeStore.getItem s u.id = some ex)
    (hch : ex.parent ≠ u.parent)
    (hup : TreeStore.updateItem s fuel u = some (true, s2)) :
    (∀ np, u.parent = some np → u ∈ TreeStore.getChildren s2 np) ∧
    (∀ op, ex.parent = some op →
        (TreeStore.getChildren s op).countP (fun c => decide (c.id = u.id)) ≤ 1 →
        ∀ c ∈ TreeStore.getChildren s2 op, c.id ≠ u.id) ∧
    (∀ (n : Nat) (ds : List ITreeItem),
        TreeStore.getAllChildrenF s2 n u.id = some ds →
        ∀ j ∈ u.id :: ds.map (fun d => d.id),
          mapGet s2.parentChainCache j = none ∧
          (∀ (m : Nat) (l : List ITreeItem) (t : TreeStore),
              TreeStore.getAllParentsF s2 m j = some (l, t) →
              ChainFrom s2 (TreeStore.getItem s2 j) l)) := by
  unfold TreeStore.updateItem at hup
  simp only [hex, if_neg hch] at hup
  generalize hsB : ({ s with items := TreeStore.replaceFirst s.items ex u, itemsMap := mapSet s.itemsMap u.id u } : TreeStore) = sB at hup
  have hsBcm : sB.childrenMap = s.childrenMap := by rw [← hsB]
  cases hpe : ex.parent with
  | some op =>
      simp only [hpe] at hup
      cases hinv1 : TreeStore.invalidateRec
          (TreeStore.removeFromChildrenMap sB op u.id) fuel op with
      | none =>
          simp only [hinv1] at hup
          exact absurd hup (by simp)
      | some s3 =>
          simp only [hinv1] at hup
          obtain ⟨-, -, hs3cm, -⟩ := invalidateRec_some _ _ _ _ hinv1
          have hs3op : mapGet s3.childrenMap op =
              (mapGet s.childrenMap op).map (fun ch => TreeStore.eraseFirstById ch u.id) := by
            rw [hs3cm, removeFromChildrenMap_cm_self, hsBcm]
          cases hpu : u.parent with
          | some np =>
              simp only [hpu] at hup
              have hopnp : op ≠ np := by
                intro hh
                exact hch (by rw [hpe, hpu, hh])
              cases hinv2 : TreeStore.invalidateRec { s3 with childrenMap := mapSet s3.childrenMap np ((mapGet s3.childrenMap np).getD [] ++ [u]) } fuel np with
              | none =>
                  simp only [hinv2] at hup
                  exact absurd hup (by simp)
              | some s4 =>
                  simp only [hinv2] at hup
                  obtain ⟨-, -, hs4cm, -⟩ := invalidateRec_some _ _ _ _ hinv2
                  cases hinv3 : TreeStore.invalidateRec s4 fuel u.id with
                  | none =>
                      simp only [hinv3] at hup
                      exact absurd hup (by simp)
                  | some s5 =>
                      simp only [hinv3] at hup
                      simp only [Option.some.injEq, Prod.mk.injEq, true_and] at hup
                      subst hup
                      obtain ⟨-, -, hs5cm, -⟩ := invalidateRec_some _ _ _ _ hinv3
                      refine ⟨?_, ?_, finalInv_cache_clear s4 s5 fuel u.id hinv3⟩
                      · intro np' hnp'
                        have hnp : np = np' := Option.some.inj hnp'
                        subst hnp
                        show u ∈ (mapGet s5.childrenMap np).getD []
                        simp only [hs5cm, hs4cm]
                        rw [mapGet_mapSet_self]
                        simp
                      · intro op' hop' hcount c hc
                        have hop : op = op' := Option.some.inj hop'
                        subst hop
                        have hc2 : c ∈ (mapGet s5.childrenMap op).getD [] := hc
                        simp only [hs5cm, hs4cm] at hc2
                        rw [mapGet_mapSet_other _ np op _ hopnp, hs3op] at hc2
                        cases hch2 : mapGet s.childrenMap op with
                        | none =>
                            rw [hch2] at hc2
                            simp at hc2
                        | some ch =>
                            rw [hch2] at hc2
                            simp only [Option.map_some', Option.getD_some] at hc2
                            have hgc : TreeStore.getChildren s op = ch := by
                              unfold TreeStore.getChildren
                              rw [hch2]
                              rfl
                            rw [hgc] at hcount
                            exact eraseFirstById_no_id ch u.id hcount c hc2
          | none =>
              simp only [hpu] at hup
              cases hinv3 : TreeStore.invalidateRec s3 fuel u.id with
              | none =>
                  simp only [hinv3] at hup
                  exact absurd hup (by simp)
              | some s5 =>
                  simp only [hinv3] at hup
                  simp only [Option.some.injEq, Prod.mk.injEq, true_and] at hup
                  subst hup
                  obtain ⟨-, -, hs5cm, -⟩ := invalidateRec_some _ _ _ _ hinv3
                  refine ⟨?_, ?_, finalInv_cache_clear s3 s5 fuel u.id hinv3⟩
                  · intro np' hnp'
                    exact Option.noConfusion hnp'
                  · intro op' hop' hcount c hc
                    have hop : op = op' := Option.some.inj hop'
                    subst hop
                    have hc2 : c ∈ (mapGet s5.childrenMap op).getD [] := hc
                    rw [hs5cm, hs3op] at hc2
                    cases hch2 : mapGet s.childrenMap op with
                    | none =>
                        rw [hch2] at hc2
                        simp at hc2
                    | some ch =>
                        rw [hch2] at hc2
                        simp only [Option.map_some', Option.getD_some] at hc2
                        have hgc : TreeStore.getChildren s op = ch := by
                          unfold TreeStore.getChildren
                          rw [hch2]
                          rfl
                        rw [hgc] at hcount
                        exact eraseFirstById_no_id ch u.id hcount c hc2
  | none =>
      simp only [hpe] at hup
      cases hpu : u.parent with
      | some np =>
          simp only [hpu] at hup
          cases hinv2 : TreeStore.invalidateRec { sB with childrenMap := mapSet sB.childrenMap np ((mapGet sB.childrenMap np).getD [] ++ [u]) } fuel np with
          | none =>
              simp only [hinv2] at hup
              exact absurd hup (by simp)
          | some s4 =>
              simp only [hinv2] at hup
              obtain ⟨-, -, hs4cm, -⟩ := invalidateRec_some _ _ _ _ hinv2
              cases hinv3 : TreeStore.invalidateRec s4 fuel u.id with
              | none =>
                  simp only [hinv3] at hup
                  exact absurd hup (by simp)
              | some s5 =>
                  simp only [hinv3] at hup
                  simp only [Option.some.injEq, Prod.mk.injEq, true_and] at hup
                  subst hup
                  obtain ⟨-, -, hs5cm, -⟩ := invalidateRec_some _ _ _ _ hinv3
                  refine ⟨?_, ?_, finalInv_cache_clear s4 s5 fuel u.id hinv3⟩
                  · intro np' hnp'
                    have hnp : np = np' := Option.some.inj hnp'
                    subst hnp
                    show u ∈ (mapGet s5.childrenMap np).getD []
                    simp only [hs5cm, hs4cm]
                    rw [mapGet_mapSet_self]
                    simp
                  · intro op' hop' hcount c hc
                    exact absurd hop' (by simp)
      | none =>
          rw [hpe] at hch
          rw [hpu] at hch
          exact absurd rfl hch

def reparStore : TreeStore :=
  ((TreeStore.updateItem mockStore 10 ⟨4, some 3, "Grandchild 1"⟩).map (fun r => r.2)).getD
    TreeStore.emptyStore

def reparChain : List ITreeItem × TreeStore :=
  (TreeStore.getAllParentsF reparStore 12 4).getD ([], reparStore)

/-- Witness for C3 on the test-suite store: moving record 4 from parent 2
to parent 3 links it under 3, unlinks its id from 2's children, clears its
cache entry, and the next ancestor-chain read computes a chain of the
specified shape against the new state. -/
theorem C3_reparent_coherence_witness :
    (⟨4, some 3, "Grandchild 1"⟩ : ITreeItem) ∈ TreeStore.getChildren reparStore 3 ∧
    (∀ c ∈ TreeStore.getChildren reparStore 2, c.id ≠ 4) ∧
    mapGet reparStore.parentChainCache 4 = none ∧
    ChainFrom reparStore (TreeStore.getItem reparStore 4) reparChain.1 :=
  have h := C3_reparent_coherence mockStore 10 ⟨4, some 3, "Grandchild 1"⟩
    ⟨4, some 2, "Grandchild 1"⟩ reparStore (by decide) (by decide) (by decide)
  have h3 := h.2.2 10 [] (by decide) 4 (by decide)
  ⟨h.1 3 rfl, h.2.1 2 rfl (by decide), h3.1,
   h3.2 12 reparChain.1 reparChain.2 (by decide)⟩
